import Mathlib

/-!
# Verification of the `pb-ciencia-computacao` benchmark programs

Shallow embedding of the two Python programs `src/tp1/sorting.py` and
`src/tp1/datastructures.py`, together with proofs of the specification's
testable properties.

Conventions:
* Python lists of strings become `List String`; the Python dictionary
  (insertion-ordered, last-write-wins on values) becomes an association
  list `List (String × Nat)` whose insertion operation mirrors CPython's
  dict-assignment semantics.
* Index-based `for`/`while` loops are translated to folds over
  `List.range` / `List.range'` with `List.getD` / `List.set` for
  `arr[j]` reads and writes.  Out-of-range reads return `default`; the
  equivalence proofs show every read performed by the programs is in
  range, so the default is never observable.
* The Python comparisons `>` / `<` on list elements are passed as a
  boolean comparator argument (`gt` / `lt`), mirroring Python's duck
  typing; the benchmark applies them to strings, where they are the
  lexicographic order.
-/

namespace PB

/-! ## Loader (`sorting.py` line 51, `datastructures.py` line 17)

`lines = [line.strip() for line in f.readlines() if line.strip()]` -/

/-- The list-comprehension loader: trim each raw line, keep it only if it
is non-empty after trimming. -/
def load_lines : List String → List String
  | [] => []
  | line :: rest =>
    if line.trim ≠ "" then line.trim :: load_lines rest else load_lines rest

/-! ## Positional retrieval (`datastructures.py` lines 73-107) -/

/-- The probe positions `[1, 100, 1000, 5000, len(lines)]` (line 73). -/
def positions (n : Nat) : List Nat := [1, 100, 1000, 5000, n]

/-- The shared retrieval pattern (lines 80-84, 90-94, 103-107): for a
1-based position `pos`, if `pos <= len(container)` report the element at
0-based index `pos - 1`, otherwise report "out of range" (`none`). -/
def probe (l : List String) (pos : Nat) : Option String :=
  if pos ≤ l.length then l[pos - 1]? else none

/-! ## The hashtable (`datastructures.py` lines 31-33)

`for i, line in enumerate(lines): hashtable[line] = i` -/

/-- CPython dict assignment `h[k] = v` on an insertion-ordered
association list: if the key is present, overwrite its value in place
(keeping its position); otherwise append the new entry at the end. -/
def mapInsert (h : List (String × Nat)) (k : String) (v : Nat) :
    List (String × Nat) :=
  if h.any (fun p => p.1 == k) then
    h.map (fun p => if p.1 == k then (k, v) else p)
  else h ++ [(k, v)]

/-- Lines 31-33: build the hashtable from the listing, storing each
line's enumeration index. -/
def buildMap (lines : List String) : List (String × Nat) :=
  lines.enum.foldl (fun h p => mapInsert h p.2 p.1) []

/-- `list(hashtable.keys())` (line 102): keys in insertion order. -/
def mapKeys (h : List (String × Nat)) : List String := h.map (·.1)

/-- Dictionary lookup: value of the (unique) entry with key `k`. -/
def mapFind (h : List (String × Nat)) (k : String) : Option Nat :=
  (h.find? (fun p => p.1 == k)).map (·.2)

/-! ## Bulk removal (`datastructures.py` lines 119-121, 129-131, 141-144) -/

/-- Lines 119-121: `for _ in range(10): if stack: stack.pop()` —
ten guarded pops from the tail. -/
def stackRemove10 (stack : List String) : List String :=
  (List.range 10).foldl
    (fun s _ => if s.isEmpty then s else s.dropLast) stack

/-- Lines 129-131: `for _ in range(10): if queue: queue.popleft()` —
ten guarded removals from the head. -/
def queueRemove10 (queue : List String) : List String :=
  (List.range 10).foldl
    (fun s _ => if s.isEmpty then s else s.tail) queue

/-- Lines 141-144: `to_remove = hashtable_keys[:10]; for key in
to_remove: if key in hashtable: del hashtable[key]`. -/
def mapRemove10 (h : List (String × Nat)) (ks : List String) :
    List (String × Nat) :=
  (ks.take 10).foldl
    (fun hh k =>
      if hh.any (fun p => p.1 == k) then hh.filter (fun p => ¬ p.1 == k)
      else hh) h

/-! ## Spec-side descriptions for the map claims

These two definitions follow the specification's words ("keys unique,
first-occurrence iteration order"; "last-write-wins on tag") and are
compared with the behaviour of `buildMap`. -/

/-- First-occurrence deduplication: the distinct elements of a list in
the order of their first occurrence, given the elements already seen. -/
def distinctAux (seen : List String) : List String → List String
  | [] => []
  | x :: xs =>
    if x ∈ seen then distinctAux seen xs
    else x :: distinctAux (seen ++ [x]) xs

/-- The distinct records of a listing in first-occurrence order. -/
def distinctFirst (l : List String) : List String := distinctAux [] l

/-- The 0-based index of the last occurrence of `k`, if any. -/
def lastIdx (k : String) : List String → Option Nat
  | [] => none
  | x :: xs =>
    match lastIdx k xs with
    | some j => some (j + 1)
    | none => if x == k then some 0 else none

/-! ## The sorting algorithms (`sorting.py` lines 4-36)

Each Python function first copies its argument (`arr = data[:]`) and
then runs index-based loops over the copy.  `for i in range(a, b)`
becomes a fold over `List.range' a (b - a)`; `arr[j]` becomes
`List.getD j default` and `arr[j] = v` becomes `List.set j v`. -/

section Sorting

variable {α : Type} [Inhabited α]

/-- Lines 9-11, loop body: `if arr[j] > arr[j+1]:
arr[j], arr[j+1] = arr[j+1], arr[j]` (tuple swap: both right-hand sides
are read before either write). -/
def bswap (gt : α → α → Bool) (arr : List α) (j : Nat) : List α :=
  if gt (arr.getD j default) (arr.getD (j + 1) default) then
    (arr.set j (arr.getD (j + 1) default)).set (j + 1) (arr.getD j default)
  else arr

/-- `bubble_sort` (lines 4-12): copy the input, then
`for i in range(n): for j in range(0, n - i - 1): ...` with the
adjacent compare-and-swap body `bswap`. -/
def bubble_sort (gt : α → α → Bool) (data : List α) : List α :=
  let arr := data
  let n := arr.length
  (List.range n).foldl
    (fun a i => (List.range (n - i - 1)).foldl (fun a2 j => bswap gt a2 j) a)
    arr

/-- `selection_sort` (lines 14-24): copy the input, then for each `i`
scan `j in range(i+1, n)` keeping the index of the first strict minimum,
and swap positions `i` and `min_idx` (both old values read first). -/
def selection_sort (lt : α → α → Bool) (data : List α) : List α :=
  let arr := data
  let n := arr.length
  (List.range n).foldl
    (fun a i =>
      let m := (List.range' (i + 1) (n - i - 1)).foldl
        (fun mi j =>
          if lt (a.getD j default) (a.getD mi default) then j else mi) i
      (a.set i (a.getD m default)).set m (a.getD i default))
    arr

/-- Lines 31-35, the shift loop of insertion sort.  The argument is
`j + 1` for the Python loop variable `j` (so `0` encodes `j = -1`):
`while j >= 0 and arr[j] > key: arr[j+1] = arr[j]; j -= 1` followed by
`arr[j+1] = key`. -/
def shiftLoop (gt : α → α → Bool) (key : α) (arr : List α) : Nat → List α
  | 0 => arr.set 0 key
  | jp + 1 =>
    if gt (arr.getD jp default) key then
      shiftLoop gt key (arr.set (jp + 1) (arr.getD jp default)) jp
    else arr.set (jp + 1) key

/-- `insertion_sort` (lines 26-36): copy the input, then
`for i in range(1, len(arr)): key = arr[i]; ...` running the shift
loop from `j = i - 1`. -/
def insertion_sort (gt : α → α → Bool) (data : List α) : List α :=
  let arr := data
  (List.range' 1 (arr.length - 1)).foldl
    (fun a i => shiftLoop gt (a.getD i default) a i) arr

/-! ### Classic structural descriptions of the three algorithms

These definitions follow the specification's prose ("repeated full
passes", "scan the unsorted remainder for the first minimum", "shift all
preceding strictly-greater elements right") and serve as the proof-side
counterparts of the index machines above. -/

/-- One bubble pass performing (at most) `k` adjacent comparisons from
the left end, swapping exactly when the left element is strictly
greater. -/
def bubblePass (gt : α → α → Bool) : List α → Nat → List α
  | l, 0 => l
  | [], _ + 1 => []
  | [a], _ + 1 => [a]
  | a :: b :: rest, k + 1 =>
    if gt a b then b :: bubblePass gt (a :: rest) k
    else a :: bubblePass gt (b :: rest) k

/-- `k` bubble passes with shrinking bounds `k-1, k-2, ..., 0`. -/
def bubbleLoop (gt : α → α → Bool) : List α → Nat → List α
  | l, 0 => l
  | l, k + 1 => bubbleLoop gt (bubblePass gt l k) k

/-- The classic bubble sort: exactly `n` passes (no early exit), pass
`i` bounded by `n - i - 1`. -/
def bubbleClassic (gt : α → α → Bool) (l : List α) : List α :=
  bubbleLoop gt l l.length

/-- The inner scan of selection sort: current best value `v` at index
`best`, next index `j`, remaining elements `xs`; the candidate is
updated only on strict `lt`, so the first minimum wins ties. -/
def minIdxAux (lt : α → α → Bool) (v : α) (best j : Nat) :
    List α → Nat
  | [] => best
  | x :: xs =>
    if lt x v then minIdxAux lt x j (j + 1) xs
    else minIdxAux lt v best (j + 1) xs

/-- Index of the first minimum of a list (0 for the empty list). -/
def minIdx (lt : α → α → Bool) : List α → Nat
  | [] => 0
  | a :: rest => minIdxAux lt a 0 1 rest

/-- Swap positions `0` and `k` of a list (both old values read first). -/
def swapFront (l : List α) (k : Nat) : List α :=
  (l.set 0 (l.getD k default)).set k (l.getD 0 default)

/-- The classic selection sort with explicit fuel (the list length):
swap the first minimum to the front, recurse on the tail. -/
def selLoop (lt : α → α → Bool) : Nat → List α → List α
  | 0, l => l
  | _ + 1, [] => []
  | r + 1, a :: xs =>
    let l2 := swapFront (a :: xs) (minIdx lt (a :: xs))
    l2.headD default :: selLoop lt r l2.tail

/-- The classic selection sort. -/
def selectionClassic (lt : α → α → Bool) (l : List α) : List α :=
  selLoop lt l.length l

/-- Insert `key` into `p` by shifting right the maximal suffix of `p`
whose elements are all strictly greater than `key` (the functional
content of the shift loop). -/
def shiftIns (gt : α → α → Bool) (key : α) (p : List α) : List α :=
  (p.reverse.dropWhile (fun x => gt x key)).reverse ++
    key :: (p.reverse.takeWhile (fun x => gt x key)).reverse

/-- The classic insertion sort: fold `shiftIns` over the input. -/
def insFold (gt : α → α → Bool) (l : List α) : List α :=
  l.foldl (fun acc key => shiftIns gt key acc) []

/-! ### The copy on entry (`arr = data[:]`, lines 6, 16, 28)

Each Python function mutates only the fresh copy `arr`; the caller's
list `data` is untouched.  The following state-passing wrappers make
that explicit: the first component is the caller's list after the call
(threaded through unchanged because every write targets the copy), the
second is the returned list. -/

/-- `bubble_sort` with the caller's list threaded through. -/
def bubble_sort_call (gt : α → α → Bool) (data : List α) :
    List α × List α :=
  let arr := data
  (data, bubble_sort gt arr)

/-- `selection_sort` with the caller's list threaded through. -/
def selection_sort_call (lt : α → α → Bool) (data : List α) :
    List α × List α :=
  let arr := data
  (data, selection_sort lt arr)

/-- `insertion_sort` with the caller's list threaded through. -/
def insertion_sort_call (gt : α → α → Bool) (data : List α) :
    List α × List α :=
  let arr := data
  (data, insertion_sort gt arr)

end Sorting

/-! ## Lemmas about the loader -/

theorem load_lines_eq (raws : List String) :
    load_lines raws = (raws.map String.trim).filter (fun s => s ≠ "") := by
  induction raws with
  | nil => rfl
  | cons line rest ih =>
    by_cases h : line.trim = ""
    · simp [load_lines, h, ih]
    · simp [load_lines, h, ih, List.filter_cons]

theorem load_lines_length (raws : List String) :
    (load_lines raws).length = raws.countP (fun l => l.trim ≠ "") := by
  induction raws with
  | nil => rfl
  | cons line rest ih =>
    by_cases h : line.trim = ""
    · simp [load_lines, h, ih, List.countP_cons]
    · simp [load_lines, h, ih, List.countP_cons]

/-! ## Lemmas about the positional probe -/

theorem probe_eq_none_of_lt {l : List String} {p : Nat}
    (h : l.length < p) : probe l p = none := by
  simp [probe, Nat.not_le.mpr h]

theorem probe_eq_get {l : List String} {p : Nat}
    (h1 : 1 ≤ p) (h2 : p ≤ l.length) :
    probe l p = some (l.get ⟨p - 1, by omega⟩) := by
  simp [probe, h2, List.getElem?_eq_getElem (by omega : p - 1 < l.length)]

theorem probe_isSome {l : List String} {p : Nat}
    (h1 : 1 ≤ p) (h2 : p ≤ l.length) : (probe l p).isSome := by
  rw [probe_eq_get h1 h2]; rfl

theorem probe_length (l : List String) :
    probe l l.length = l.getLast? := by
  cases l with
  | nil => rfl
  | cons a t =>
    rw [probe, if_pos (Nat.le_refl _), List.getLast?_eq_getElem?]

/-! ## Lemmas about bulk removal -/

theorem guarded_dropLast_eq_nil {α β : Type} :
    ∀ (idx : List β) (s : List α), s.length ≤ idx.length →
      idx.foldl (fun t _ => if t.isEmpty then t else t.dropLast) s = [] := by
  intro idx
  induction idx with
  | nil => intro s hs; simp at hs; simpa [List.length_eq_zero] using hs
  | cons i rest ih =>
    intro s hs
    by_cases h : s.isEmpty
    · have : s = [] := by simpa [List.isEmpty_iff] using h
      subst this
      simpa using ih [] (by simp)
    · simp only [List.foldl_cons, if_neg h]
      refine ih _ ?_
      have hlen : s.dropLast.length = s.length - 1 := List.length_dropLast s
      have : s ≠ [] := by simpa [List.isEmpty_iff] using h
      have hpos : 0 < s.length := List.length_pos.mpr this
      simp only [List.length_cons] at hs
      omega

theorem guarded_tail_eq_nil {α β : Type} :
    ∀ (idx : List β) (s : List α), s.length ≤ idx.length →
      idx.foldl (fun t _ => if t.isEmpty then t else t.tail) s = [] := by
  intro idx
  induction idx with
  | nil => intro s hs; simp at hs; simpa [List.length_eq_zero] using hs
  | cons i rest ih =>
    intro s hs
    by_cases h : s.isEmpty
    · have : s = [] := by simpa [List.isEmpty_iff] using h
      subst this
      simpa using ih [] (by simp)
    · simp only [List.foldl_cons, if_neg h]
      refine ih _ ?_
      have : s ≠ [] := by simpa [List.isEmpty_iff] using h
      have hpos : 0 < s.length := List.length_pos.mpr this
      simp only [List.length_cons] at hs
      simp [List.length_tail]
      omega

theorem stackRemove10_eq_nil {stack : List String}
    (h : stack.length < 10) : stackRemove10 stack = [] :=
  guarded_dropLast_eq_nil (List.range 10) stack
    (by simpa using Nat.le_of_lt h)

theorem queueRemove10_eq_nil {queue : List String}
    (h : queue.length < 10) : queueRemove10 queue = [] :=
  guarded_tail_eq_nil (List.range 10) queue
    (by simpa using Nat.le_of_lt h)

/-! ## Lemmas about the hashtable -/

theorem anyKey_iff (h : List (String × Nat)) (k : String) :
    h.any (fun p => p.1 == k) = true ↔ k ∈ mapKeys h := by
  rw [List.any_eq_true]
  unfold mapKeys
  constructor
  · rintro ⟨p, hp, hpk⟩
    exact List.mem_map.mpr ⟨p, hp, beq_iff_eq.mp hpk⟩
  · intro hk
    rcases List.mem_map.mp hk with ⟨p, hp, hpk⟩
    exact ⟨p, hp, beq_iff_eq.mpr hpk⟩

theorem mapKeys_mapInsert (h : List (String × Nat)) (k : String) (v : Nat) :
    mapKeys (mapInsert h k v) =
      if k ∈ mapKeys h then mapKeys h else mapKeys h ++ [k] := by
  by_cases hk : k ∈ mapKeys h
  · rw [mapInsert, if_pos ((anyKey_iff h k).mpr hk), if_pos hk]
    unfold mapKeys
    rw [List.map_map]
    refine List.map_congr_left ?_
    intro p _
    simp only [Function.comp_apply]
    by_cases hp : p.1 = k
    · rw [if_pos (by simpa using hp)]
      exact hp.symm
    · rw [if_neg (by simpa using hp)]
  · rw [mapInsert, if_neg, if_neg hk]
    · unfold mapKeys
      rw [List.map_append]
      rfl
    · intro hc; exact hk ((anyKey_iff h k).mp hc)

theorem mapFind_nil (k : String) : mapFind [] k = none := rfl

theorem find?_map_update (h : List (String × Nat)) (k : String) (v : Nat) :
    (h.map (fun p => if p.1 == k then (k, v) else p)).find?
        (fun p => p.1 == k) =
      (h.find? (fun p => p.1 == k)).map (fun _ => (k, v)) := by
  induction h with
  | nil => rfl
  | cons p t ih =>
    cases hpe : (p.1 == k) with
    | true =>
      rw [List.map_cons, if_pos hpe]
      simp only [List.find?_cons, hpe, beq_self_eq_true, Option.map_some]
      rfl
    | false =>
      rw [List.map_cons, if_neg (by simp [hpe])]
      simp only [List.find?_cons, hpe]
      exact ih

theorem find?_map_update_ne (h : List (String × Nat)) {k k' : String}
    (v : Nat) (hne : k' ≠ k) :
    (h.map (fun p => if p.1 == k then (k, v) else p)).find?
        (fun p => p.1 == k') =
      h.find? (fun p => p.1 == k') := by
  induction h with
  | nil => rfl
  | cons p t ih =>
    cases hpe : (p.1 == k) with
    | true =>
      have hp : p.1 = k := by simpa using hpe
      have h2 : (p.1 == k') = false := by
        rw [beq_eq_false_iff_ne, hp]
        exact hne.symm
      have h3 : (k == k') = false := by
        rw [beq_eq_false_iff_ne]
        exact hne.symm
      rw [List.map_cons, if_pos hpe]
      simp only [List.find?_cons, h2, h3]
      exact ih
    | false =>
      rw [List.map_cons, if_neg (by simp [hpe])]
      simp only [List.find?_cons]
      cases hp' : (p.1 == k') with
      | true => rfl
      | false => exact ih

theorem mapFind_mapInsert_self (h : List (String × Nat)) (k : String)
    (v : Nat) : mapFind (mapInsert h k v) k = some v := by
  by_cases hk : h.any (fun p => p.1 == k) = true
  · rw [mapInsert, if_pos hk, mapFind, find?_map_update]
    have hsome : (h.find? (fun p => p.1 == k)).isSome := by
      rw [List.find?_isSome]
      exact List.any_eq_true.mp hk
    rcases Option.isSome_iff_exists.mp hsome with ⟨p, hp⟩
    rw [hp]
    rfl
  · rw [mapInsert, if_neg hk, mapFind]
    have hnone : h.find? (fun p => p.1 == k) = none := by
      rw [List.find?_eq_none]
      intro p hp
      simp only [Bool.not_eq_true]
      cases hpe : (p.1 == k) with
      | false => rfl
      | true => exact absurd (List.any_eq_true.mpr ⟨p, hp, hpe⟩) hk
    rw [List.find?_append, hnone, Option.none_or]
    simp

theorem mapFind_mapInsert_ne (h : List (String × Nat)) {k k' : String}
    (v : Nat) (hne : k' ≠ k) :
    mapFind (mapInsert h k v) k' = mapFind h k' := by
  by_cases hk : h.any (fun p => p.1 == k) = true
  · rw [mapInsert, if_pos hk, mapFind, find?_map_update_ne h v hne]
    rfl
  · rw [mapInsert, if_neg hk]
    have h1 : List.find? (fun p => p.1 == k') [(k, v)] = none := by
      have h3 : (k == k') = false := by
        rw [beq_eq_false_iff_ne]
        exact hne.symm
      simp [List.find?_cons, h3]
    unfold mapFind
    rw [List.find?_append, h1]
    cases List.find? (fun p => p.1 == k') h <;> rfl

/-! ## Characterisation of `buildMap` -/

theorem keys_fold :
    ∀ (l : List String) (n : Nat) (h : List (String × Nat)),
      mapKeys ((List.enumFrom n l).foldl
          (fun hh p => mapInsert hh p.2 p.1) h) =
        mapKeys h ++ distinctAux (mapKeys h) l := by
  intro l
  induction l with
  | nil => intro n h; simp [distinctAux]
  | cons x xs ih =>
    intro n h
    rw [show List.enumFrom n (x :: xs) = (n, x) :: List.enumFrom (n + 1) xs
        from rfl,
      List.foldl_cons]
    rw [ih (n + 1) (mapInsert h x n)]
    by_cases hx : x ∈ mapKeys h
    · rw [mapKeys_mapInsert, if_pos hx]
      rw [distinctAux, if_pos hx]
    · rw [mapKeys_mapInsert, if_neg hx]
      rw [distinctAux, if_neg hx]
      have : distinctAux (mapKeys h) (x :: xs) =
          x :: distinctAux (mapKeys h ++ [x]) xs := by
        rw [distinctAux, if_neg hx]
      rw [List.append_assoc]
      rfl

theorem keys_buildMap (l : List String) :
    mapKeys (buildMap l) = distinctFirst l := by
  have h := keys_fold l 0 []
  rw [buildMap, show l.enum = List.enumFrom 0 l from rfl, h]
  rfl

theorem find_fold :
    ∀ (l : List String) (n : Nat) (h : List (String × Nat)) (k : String),
      mapFind ((List.enumFrom n l).foldl
          (fun hh p => mapInsert hh p.2 p.1) h) k =
        (match lastIdx k l with
          | some j => some (n + j)
          | none => mapFind h k) := by
  intro l
  induction l with
  | nil => intro n h k; simp [lastIdx]
  | cons x xs ih =>
    intro n h k
    rw [show List.enumFrom n (x :: xs) = (n, x) :: List.enumFrom (n + 1) xs
        from rfl,
      List.foldl_cons]
    rw [ih (n + 1) (mapInsert h x n) k]
    cases hlast : lastIdx k xs with
    | some j =>
      rw [show lastIdx k (x :: xs) = some (j + 1) by
        rw [lastIdx, hlast]]
      simp only []
      congr 1
      omega
    | none =>
      by_cases hxk : x = k
      · rw [show lastIdx k (x :: xs) = some 0 by
          rw [lastIdx, hlast]
          simp [hxk]]
        subst hxk
        simp [mapFind_mapInsert_self]
      · rw [show lastIdx k (x :: xs) = none by
          rw [lastIdx, hlast]
          simp [hxk]]
        simp only []
        exact mapFind_mapInsert_ne h n (fun hc => hxk hc.symm)

theorem find_buildMap (l : List String) (k : String) :
    mapFind (buildMap l) k = lastIdx k l := by
  have h := find_fold l 0 [] k
  rw [buildMap, show l.enum = List.enumFrom 0 l from rfl, h]
  cases lastIdx k l with
  | some j => simp
  | none => rfl

/-! ## Properties of `distinctFirst` -/

theorem distinctAux_sublist :
    ∀ (l seen : List String), List.Sublist (distinctAux seen l) l := by
  intro l
  induction l with
  | nil => intro seen; simp [distinctAux]
  | cons x xs ih =>
    intro seen
    rw [distinctAux]
    by_cases hx : x ∈ seen
    · rw [if_pos hx]
      exact (ih seen).trans (List.sublist_cons_self x xs)
    · rw [if_neg hx]
      exact List.Sublist.cons₂ x (ih (seen ++ [x]))

theorem distinctAux_not_mem_seen :
    ∀ (l seen : List String) (y : String),
      y ∈ distinctAux seen l → y ∉ seen := by
  intro l
  induction l with
  | nil => intro seen y hy; simp [distinctAux] at hy
  | cons x xs ih =>
    intro seen y hy
    rw [distinctAux] at hy
    by_cases hx : x ∈ seen
    · rw [if_pos hx] at hy
      exact ih seen y hy
    · rw [if_neg hx] at hy
      rcases List.mem_cons.mp hy with rfl | hy'
      · exact hx
      · intro hc
        exact ih (seen ++ [x]) y hy' (List.mem_append_left _ hc)

theorem distinctAux_nodup :
    ∀ (l seen : List String), (distinctAux seen l).Nodup := by
  intro l
  induction l with
  | nil => intro seen; simp [distinctAux]
  | cons x xs ih =>
    intro seen
    rw [distinctAux]
    by_cases hx : x ∈ seen
    · rw [if_pos hx]; exact ih seen
    · rw [if_neg hx]
      refine List.nodup_cons.mpr ⟨?_, ih (seen ++ [x])⟩
      intro hc
      exact distinctAux_not_mem_seen xs (seen ++ [x]) x hc
        (List.mem_append_right _ (List.mem_singleton_self x))

theorem distinctFirst_length_le (l : List String) :
    (distinctFirst l).length ≤ l.length :=
  (distinctAux_sublist l []).length_le

theorem distinctFirst_length_lt {l : List String} (h : ¬ l.Nodup) :
    (distinctFirst l).length < l.length := by
  rcases Nat.lt_or_ge (distinctFirst l).length l.length with hlt | hge
  · exact hlt
  · exfalso
    have heq : distinctFirst l = l :=
      (distinctAux_sublist l []).eq_of_length
        (Nat.le_antisymm (distinctFirst_length_le l) hge)
    exact h (heq ▸ distinctAux_nodup l [])

/-! ## Emptying the hashtable -/

theorem mapRemove_all :
    ∀ (ks : List String) (h : List (String × Nat)),
      (∀ p ∈ h, p.1 ∈ ks) →
      ks.foldl
        (fun hh k =>
          if hh.any (fun p => p.1 == k) then
            hh.filter (fun p => ¬ p.1 == k)
          else hh) h = [] := by
  intro ks
  induction ks with
  | nil =>
    intro h hmem
    cases h with
    | nil => rfl
    | cons p t => exact absurd (hmem p (List.mem_cons_self p t)) (by simp)
  | cons k kt ih =>
    intro h hmem
    rw [List.foldl_cons]
    by_cases hany : h.any (fun p => p.1 == k) = true
    · rw [if_pos hany]
      refine ih _ ?_
      intro p hp
      have hp' := List.mem_filter.mp hp
      have hne : p.1 ≠ k := by
        have h2 := hp'.2
        simp only [decide_eq_true_eq, Bool.not_eq_true] at h2
        exact beq_eq_false_iff_ne.mp h2
      rcases List.mem_cons.mp (hmem p hp'.1) with hcon | hkt
      · exact absurd hcon hne
      · exact hkt
    · rw [if_neg hany]
      refine ih _ ?_
      intro p hp
      rcases List.mem_cons.mp (hmem p hp) with hcon | hkt
      · exact absurd
          ((List.any_eq_true (p := fun q : String × Nat => q.1 == k)).mpr
            ⟨p, hp, beq_iff_eq.mpr hcon⟩) hany
      · exact hkt

theorem mapRemove10_eq_nil {lines : List String}
    (h : lines.length < 10) :
    mapRemove10 (buildMap lines) (mapKeys (buildMap lines)) = [] := by
  have hlen : (mapKeys (buildMap lines)).length < 10 := by
    rw [keys_buildMap]
    exact Nat.lt_of_le_of_lt (distinctFirst_length_le lines) h
  rw [mapRemove10, List.take_of_length_le (Nat.le_of_lt hlen)]
  refine mapRemove_all _ _ ?_
  intro p hp
  exact List.mem_map.mpr ⟨p, hp, rfl⟩

/-! ## Correctness of the classic bubble sort -/

section BubbleProofs

variable {α : Type} [Inhabited α]

theorem bubblePass_zero (gt : α → α → Bool) (l : List α) :
    bubblePass gt l 0 = l := by
  cases l with
  | nil => rfl
  | cons a t =>
    cases t with
    | nil => rfl
    | cons b r => rfl

theorem bubblePass_nil (gt : α → α → Bool) (k : Nat) :
    bubblePass gt ([] : List α) k = [] := by
  cases k <;> rfl

theorem bubblePass_single (gt : α → α → Bool) (a : α) (k : Nat) :
    bubblePass gt [a] k = [a] := by
  cases k <;> rfl

theorem bubblePass_cons2 (gt : α → α → Bool) (a b : α) (rest : List α)
    (k : Nat) :
    bubblePass gt (a :: b :: rest) (k + 1) =
      if gt a b then b :: bubblePass gt (a :: rest) k
      else a :: bubblePass gt (b :: rest) k := rfl

theorem bubblePass_perm (gt : α → α → Bool) :
    ∀ (k : Nat) (l : List α), List.Perm (bubblePass gt l k) l := by
  intro k
  induction k with
  | zero => intro l; rw [bubblePass_zero]
  | succ k ih =>
    intro l
    match l with
    | [] => exact List.Perm.refl _
    | [a] => exact List.Perm.refl _
    | a :: b :: rest =>
      rw [bubblePass_cons2]
      by_cases hab : gt a b = true
      · rw [if_pos hab]
        exact ((ih (a :: rest)).cons b).trans (List.Perm.swap a b rest)
      · rw [if_neg hab]
        exact (ih (b :: rest)).cons a

theorem bubblePass_length (gt : α → α → Bool) (k : Nat) (l : List α) :
    (bubblePass gt l k).length = l.length :=
  (bubblePass_perm gt k l).length_eq

theorem bubblePass_append (gt : α → α → Bool) :
    ∀ (k : Nat) (l t : List α), l.length = k + 1 →
      bubblePass gt (l ++ t) k = bubblePass gt l k ++ t := by
  intro k
  induction k with
  | zero =>
    intro l t hl
    rw [bubblePass_zero, bubblePass_zero]
  | succ k ih =>
    intro l t hl
    match l, hl with
    | a :: b :: rest, hl =>
      have hlen : (a :: rest).length = k + 1 := by
        simp only [List.length_cons] at hl ⊢
        omega
      have hlen' : (b :: rest).length = k + 1 := by
        simp only [List.length_cons] at hl ⊢
        omega
      show bubblePass gt (a :: b :: (rest ++ t)) (k + 1) = _
      rw [bubblePass_cons2, bubblePass_cons2]
      by_cases hab : gt a b = true
      · rw [if_pos hab, if_pos hab]
        rw [show a :: (rest ++ t) = (a :: rest) ++ t from rfl, ih _ t hlen]
        rfl
      · rw [if_neg hab, if_neg hab]
        rw [show b :: (rest ++ t) = (b :: rest) ++ t from rfl, ih _ t hlen']
        rfl

theorem bubblePass_max {α : Type} [Inhabited α] [LinearOrder α] :
    ∀ (k : Nat) (l : List α), l.length = k + 1 →
      ∃ l1 m, bubblePass (fun a b => decide (b < a)) l k = l1 ++ [m] ∧
        ∀ x ∈ l1, x ≤ m := by
  intro k
  induction k with
  | zero =>
    intro l hl
    match l, hl with
    | [a], _ => exact ⟨[], a, rfl, by simp⟩
  | succ k ih =>
    intro l hl
    match l, hl with
    | a :: b :: rest, hl =>
      have hlen : (a :: rest).length = k + 1 := by
        simp only [List.length_cons] at hl ⊢
        omega
      have hlen' : (b :: rest).length = k + 1 := by
        simp only [List.length_cons] at hl ⊢
        omega
      rw [bubblePass_cons2]
      by_cases hab : b < a
      · rw [if_pos (by simpa using hab)]
        rcases ih (a :: rest) hlen with ⟨l1, m, heq, hle⟩
        refine ⟨b :: l1, m, by rw [heq]; rfl, ?_⟩
        intro x hx
        rcases List.mem_cons.mp hx with rfl | hx'
        · have ham : a ∈ l1 ++ [m] := by
            rw [← heq]
            exact (bubblePass_perm _ k (a :: rest)).mem_iff.mpr
              (List.mem_cons_self a rest)
          rcases List.mem_append.mp ham with h1 | h2
          · exact le_of_lt (lt_of_lt_of_le hab (hle a h1))
          · have : a = m := by simpa using h2
            exact le_of_lt (this ▸ hab)
        · exact hle x hx'
      · rw [if_neg (by simpa using hab)]
        have hba : a ≤ b := le_of_not_lt hab
        rcases ih (b :: rest) hlen' with ⟨l1, m, heq, hle⟩
        refine ⟨a :: l1, m, by rw [heq]; rfl, ?_⟩
        intro x hx
        rcases List.mem_cons.mp hx with rfl | hx'
        · have hbm : b ∈ l1 ++ [m] := by
            rw [← heq]
            exact (bubblePass_perm _ k (b :: rest)).mem_iff.mpr
              (List.mem_cons_self b rest)
          rcases List.mem_append.mp hbm with h1 | h2
          · exact le_trans hba (hle b h1)
          · have : b = m := by simpa using h2
            exact this ▸ hba
        · exact hle x hx'

theorem bubbleLoop_perm (gt : α → α → Bool) :
    ∀ (k : Nat) (l : List α), List.Perm (bubbleLoop gt l k) l := by
  intro k
  induction k with
  | zero => intro l; exact List.Perm.refl _
  | succ k ih =>
    intro l
    rw [bubbleLoop]
    exact (ih _).trans (bubblePass_perm gt k l)

theorem bubbleLoop_sorted_aux {α : Type} [Inhabited α] [LinearOrder α] :
    ∀ (k : Nat) (front back : List α), front.length = k →
      List.Sorted (· ≤ ·) back →
      (∀ x ∈ front, ∀ y ∈ back, x ≤ y) →
      List.Sorted (· ≤ ·)
        (bubbleLoop (fun a b => decide (b < a)) (front ++ back) k) := by
  intro k
  induction k with
  | zero =>
    intro front back hf hs _
    have : front = [] := List.length_eq_zero.mp hf
    subst this
    simpa using hs
  | succ k ih =>
    intro front back hf hs hcross
    rw [bubbleLoop,
      bubblePass_append (fun a b => decide (b < a)) k front back hf]
    rcases bubblePass_max k front hf with ⟨l1, m, heq, hle⟩
    have hperm : List.Perm (l1 ++ [m]) front := by
      rw [← heq]
      exact bubblePass_perm _ k front
    have hl1len : l1.length = k := by
      have := hperm.length_eq
      simp only [List.length_append, List.length_singleton] at this
      omega
    have hmfront : m ∈ front :=
      hperm.mem_iff.mp (List.mem_append_right l1 (List.mem_singleton_self m))
    have hsub : ∀ x ∈ l1, x ∈ front := by
      intro x hx
      exact hperm.mem_iff.mp (List.mem_append_left [m] hx)
    rw [heq, List.append_assoc]
    refine ih l1 (m :: back) hl1len ?_ ?_
    · rw [List.sorted_cons]
      exact ⟨fun y hy => hcross m hmfront y hy, hs⟩
    · intro x hx y hy
      rcases List.mem_cons.mp hy with rfl | hy'
      · exact hle x hx
      · exact hcross x (hsub x hx) y hy'

theorem bubbleClassic_perm (gt : α → α → Bool) (l : List α) :
    List.Perm (bubbleClassic gt l) l :=
  bubbleLoop_perm gt l.length l

theorem bubbleClassic_sorted {α : Type} [Inhabited α] [LinearOrder α]
    (l : List α) :
    List.Sorted (· ≤ ·) (bubbleClassic (fun a b => decide (b < a)) l) := by
  have := bubbleLoop_sorted_aux l.length l [] rfl List.sorted_nil
    (by intro x _ y hy; simp at hy)
  simpa using this

/-! ### The index machine computes the classic bubble sort -/

theorem bswap_cons_succ (gt : α → α → Bool) (x : α) (l : List α) (j : Nat) :
    bswap gt (x :: l) (j + 1) = x :: bswap gt l j := by
  unfold bswap
  simp only [List.getD_cons_succ, List.set_cons_succ]
  split <;> rfl

theorem bswap_cons2_zero (gt : α → α → Bool) (a b : α) (rest : List α) :
    bswap gt (a :: b :: rest) 0 =
      if gt a b then b :: a :: rest else a :: b :: rest := by
  unfold bswap
  simp only [List.getD_cons_zero, List.getD_cons_succ, List.set_cons_zero,
    List.set_cons_succ]

theorem bfold_shift (gt : α → α → Bool) :
    ∀ (k s : Nat) (x : α) (l : List α),
      (List.range' (s + 1) k).foldl (fun a j => bswap gt a j) (x :: l) =
        x :: (List.range' s k).foldl (fun a j => bswap gt a j) l := by
  intro k
  induction k with
  | zero => intro s x l; rfl
  | succ k ih =>
    intro s x l
    rw [List.range'_succ, List.range'_succ, List.foldl_cons, List.foldl_cons,
      bswap_cons_succ]
    exact ih (s + 1) x (bswap gt l s)

theorem bfold_eq_bubblePass (gt : α → α → Bool) :
    ∀ (k : Nat) (l : List α), k < l.length ∨ k = 0 →
      (List.range k).foldl (fun a j => bswap gt a j) l =
        bubblePass gt l k := by
  intro k
  induction k with
  | zero =>
    intro l _
    rw [bubblePass_zero]
    rfl
  | succ k ih =>
    intro l hl
    have hlen : k + 1 < l.length := by
      rcases hl with h | h
      · exact h
      · exact absurd h (Nat.succ_ne_zero k)
    cases l with
    | nil => exact absurd hlen (by simp)
    | cons a t =>
      cases t with
      | nil =>
        rw [List.length_cons, List.length_nil] at hlen
        exact absurd hlen (by omega)
      | cons b rest =>
        rw [List.range_eq_range', List.range'_succ, List.foldl_cons,
          bswap_cons2_zero]
        have hk : k < (a :: rest).length ∨ k = 0 := by
          simp only [List.length_cons] at hlen ⊢
          omega
        have hk' : k < (b :: rest).length ∨ k = 0 := by
          simp only [List.length_cons] at hlen ⊢
          omega
        rw [bubblePass_cons2]
        by_cases hab : gt a b = true
        · rw [if_pos hab, if_pos hab, bfold_shift gt k 0 b (a :: rest),
            ← List.range_eq_range', ih (a :: rest) hk]
        · rw [if_neg hab, if_neg hab, bfold_shift gt k 0 a (b :: rest),
            ← List.range_eq_range', ih (b :: rest) hk']

theorem bouter_eq_bubbleLoop (gt : α → α → Bool) (n : Nat) :
    ∀ (m i : Nat) (l : List α), l.length = n → i + m = n →
      (List.range' i m).foldl
          (fun a i' =>
            (List.range (n - i' - 1)).foldl (fun a2 j => bswap gt a2 j) a)
          l =
        bubbleLoop gt l m := by
  intro m
  induction m with
  | zero => intro i l _ _; rfl
  | succ m ih =>
    intro i l hl him
    rw [List.range'_succ, List.foldl_cons]
    have hbound : n - i - 1 = m := by omega
    rw [hbound,
      bfold_eq_bubblePass gt m l (Or.inl (by omega)),
      show bubbleLoop gt l (m + 1) = bubbleLoop gt (bubblePass gt l m) m
        from rfl]
    exact ih (i + 1) (bubblePass gt l m)
      (by rw [bubblePass_length, hl]) (by omega)

theorem bubble_sort_eq_classic (gt : α → α → Bool) (data : List α) :
    bubble_sort gt data = bubbleClassic gt data := by
  show (List.range data.length).foldl
      (fun a i =>
        (List.range (data.length - i - 1)).foldl
          (fun a2 j => bswap gt a2 j) a)
      data = bubbleLoop gt data data.length
  rw [List.range_eq_range']
  exact bouter_eq_bubbleLoop gt data.length data.length 0 data rfl
    (by omega)

end BubbleProofs

/-! ## Correctness of the classic insertion sort -/

section InsertionProofs

variable {α : Type} [Inhabited α]

theorem shiftIns_decomp (gt : α → α → Bool) (key : α) (p : List α) :
    p = (p.reverse.dropWhile (fun x => gt x key)).reverse ++
        (p.reverse.takeWhile (fun x => gt x key)).reverse ∧
    shiftIns gt key p =
      (p.reverse.dropWhile (fun x => gt x key)).reverse ++
        key :: (p.reverse.takeWhile (fun x => gt x key)).reverse := by
  constructor
  · conv_lhs => rw [← List.reverse_reverse p,
      ← List.takeWhile_append_dropWhile (fun x => gt x key) p.reverse]
    rw [List.reverse_append]
  · rfl

theorem shiftIns_perm (gt : α → α → Bool) (key : α) (p : List α) :
    List.Perm (shiftIns gt key p) (key :: p) := by
  rcases shiftIns_decomp gt key p with ⟨hp, hs⟩
  rw [hs]
  refine List.perm_middle.trans ?_
  rw [← hp]

theorem shiftIns_length (gt : α → α → Bool) (key : α) (p : List α) :
    (shiftIns gt key p).length = p.length + 1 := by
  have := (shiftIns_perm gt key p).length_eq
  simpa using this

theorem sorted_dropWhile_le {α : Type} [LinearOrder α] (key : α) :
    ∀ (r : List α), List.Pairwise (fun a b => b ≤ a) r →
      ∀ x ∈ r.dropWhile (fun x => decide (key < x)), x ≤ key := by
  intro r
  induction r with
  | nil => intro _ x hx; simp at hx
  | cons a t ih =>
    intro hr x hx
    by_cases ha : key < a
    · rw [List.dropWhile_cons_of_pos (by simpa using ha)] at hx
      exact ih (List.pairwise_cons.mp hr).2 x hx
    · rw [List.dropWhile_cons_of_neg (by simpa using ha)] at hx
      rcases List.mem_cons.mp hx with rfl | hx'
      · exact le_of_not_lt ha
      · exact le_trans ((List.pairwise_cons.mp hr).1 x hx') (le_of_not_lt ha)

theorem shiftIns_sorted {α : Type} [Inhabited α] [LinearOrder α] (key : α)
    {p : List α} (hs : List.Sorted (· ≤ ·) p) :
    List.Sorted (· ≤ ·) (shiftIns (fun a b => decide (b < a)) key p) := by
  rcases shiftIns_decomp (fun a b => decide (b < a)) key p with ⟨hp, hrw⟩
  rw [hrw]
  have hsplit := hp ▸ hs
  rw [List.Sorted, List.pairwise_append] at hsplit
  rcases hsplit with ⟨hdw, htw, hcross⟩
  have htwmem : ∀ x ∈ (p.reverse.takeWhile
      (fun x => decide (key < x))).reverse, key < x := by
    intro x hx
    have := List.mem_takeWhile_imp (List.mem_reverse.mp hx)
    simpa using this
  have hdwmem : ∀ x ∈ (p.reverse.dropWhile
      (fun x => decide (key < x))).reverse, x ≤ key := by
    intro x hx
    have hrev : List.Pairwise (fun a b => b ≤ a) p.reverse :=
      List.pairwise_reverse.mpr hs
    exact sorted_dropWhile_le key p.reverse hrev x (List.mem_reverse.mp hx)
  rw [List.Sorted, List.pairwise_append]
  refine ⟨hdw, ?_, ?_⟩
  · rw [List.pairwise_cons]
    exact ⟨fun y hy => le_of_lt (htwmem y hy), htw⟩
  · intro x hx y hy
    rcases List.mem_cons.mp hy with rfl | hy'
    · exact hdwmem x hx
    · exact hcross x hx y hy'

theorem shiftIns_filter_pos (gt : α → α → Bool) (q : α → Bool) (key : α)
    (p : List α) (hq : ∀ x, q x = true → gt x key = false)
    (hk : q key = true) :
    (shiftIns gt key p).filter q = p.filter q ++ [key] := by
  rcases shiftIns_decomp gt key p with ⟨hp, hrw⟩
  have htwnil : ((p.reverse.takeWhile (fun x => gt x key)).reverse).filter
      q = [] := by
    rw [List.filter_eq_nil_iff]
    intro a ha
    have hgt := List.mem_takeWhile_imp (List.mem_reverse.mp ha)
    intro hqa
    rw [hq a hqa] at hgt
    exact Bool.false_ne_true hgt
  rw [hrw, List.filter_append, List.filter_cons_of_pos hk, htwnil]
  conv_rhs => rw [hp]
  rw [List.filter_append, htwnil, List.append_nil]

theorem shiftIns_filter_neg (gt : α → α → Bool) (q : α → Bool) (key : α)
    (p : List α) (hk : q key = false) :
    (shiftIns gt key p).filter q = p.filter q := by
  rcases shiftIns_decomp gt key p with ⟨hp, hrw⟩
  rw [hrw, List.filter_append, List.filter_cons_of_neg (by simp [hk])]
  conv_rhs => rw [hp]
  rw [List.filter_append]

theorem insFold_concat (gt : α → α → Bool) (l : List α) (x : α) :
    insFold gt (l ++ [x]) = shiftIns gt x (insFold gt l) := by
  unfold insFold
  rw [List.foldl_append]
  rfl

theorem insFold_perm_aux (gt : α → α → Bool) :
    ∀ (l acc : List α),
      List.Perm (l.foldl (fun acc key => shiftIns gt key acc) acc)
        (acc ++ l) := by
  intro l
  induction l with
  | nil => intro acc; simp
  | cons k l' ih =>
    intro acc
    rw [List.foldl_cons]
    refine (ih (shiftIns gt k acc)).trans ?_
    refine (List.Perm.append_right l' (shiftIns_perm gt k acc)).trans ?_
    rw [show (k :: acc) ++ l' = k :: (acc ++ l') from rfl]
    exact List.perm_middle.symm

theorem insFold_perm (gt : α → α → Bool) (l : List α) :
    List.Perm (insFold gt l) l :=
  insFold_perm_aux gt l []

theorem insFold_sorted_aux {α : Type} [Inhabited α] [LinearOrder α] :
    ∀ (l acc : List α), List.Sorted (· ≤ ·) acc →
      List.Sorted (· ≤ ·)
        (l.foldl (fun acc key => shiftIns (fun a b => decide (b < a)) key acc)
          acc) := by
  intro l
  induction l with
  | nil => intro acc hacc; exact hacc
  | cons k l' ih =>
    intro acc hacc
    rw [List.foldl_cons]
    exact ih _ (shiftIns_sorted k hacc)

theorem insFold_sorted {α : Type} [Inhabited α] [LinearOrder α]
    (l : List α) :
    List.Sorted (· ≤ ·) (insFold (fun a b => decide (b < a)) l) :=
  insFold_sorted_aux l [] List.sorted_nil

theorem insFold_filter_aux (gt : α → α → Bool) (q : α → Bool)
    (hq : ∀ x k, q x = true → q k = true → gt x k = false) :
    ∀ (l acc : List α),
      (l.foldl (fun acc key => shiftIns gt key acc) acc).filter q =
        acc.filter q ++ l.filter q := by
  intro l
  induction l with
  | nil => intro acc; simp
  | cons k l' ih =>
    intro acc
    rw [List.foldl_cons, ih]
    cases hk : q k with
    | true =>
      rw [shiftIns_filter_pos gt q k acc (fun x hx => hq x k hx hk) hk,
        List.filter_cons_of_pos hk, List.append_assoc]
      rfl
    | false =>
      rw [shiftIns_filter_neg gt q k acc hk, List.filter_cons_of_neg
        (by simp [hk])]

theorem insFold_filter (gt : α → α → Bool) (q : α → Bool)
    (hq : ∀ x k, q x = true → q k = true → gt x k = false) (l : List α) :
    (insFold gt l).filter q = l.filter q :=
  insFold_filter_aux gt q hq l []

/-! ### The index machine computes the classic insertion sort -/

theorem getD_append_length :
    ∀ (P : List α) (b : α) (t : List α) (d : α),
      (P ++ b :: t).getD P.length d = b := by
  intro P
  induction P with
  | nil => intro b t d; rfl
  | cons x P ih =>
    intro b t d
    rw [List.cons_append, List.length_cons, List.getD_cons_succ]
    exact ih b t d

theorem set_append_middle :
    ∀ (P : List α) (b c : α) (t : List α) (v : α),
      (P ++ b :: c :: t).set (P.length + 1) v = P ++ b :: v :: t := by
  intro P
  induction P with
  | nil => intro b c t v; rfl
  | cons x P ih =>
    intro b c t v
    rw [List.cons_append, List.length_cons, List.set_cons_succ, ih]
    rfl

theorem shiftIns_nil (gt : α → α → Bool) (key : α) :
    shiftIns gt key [] = [key] := rfl

theorem shiftIns_concat_pos (gt : α → α → Bool) (key b : α) (P : List α)
    (hb : gt b key = true) :
    shiftIns gt key (P ++ [b]) = shiftIns gt key P ++ [b] := by
  unfold shiftIns
  rw [List.reverse_append, List.reverse_singleton, List.singleton_append,
    List.takeWhile_cons_of_pos (p := fun x => gt x key) hb,
    List.dropWhile_cons_of_pos (p := fun x => gt x key) hb,
    List.reverse_cons, List.append_assoc]
  rfl

theorem shiftIns_concat_neg (gt : α → α → Bool) (key b : α) (P : List α)
    (hb : gt b key = false) :
    shiftIns gt key (P ++ [b]) = P ++ [b, key] := by
  unfold shiftIns
  rw [List.reverse_append, List.reverse_singleton, List.singleton_append,
    List.takeWhile_cons_of_neg (p := fun x => gt x key) (by simp [hb]),
    List.dropWhile_cons_of_neg (p := fun x => gt x key) (by simp [hb]),
    List.reverse_cons, List.reverse_reverse, List.reverse_nil,
    List.append_assoc]
  rfl

theorem shiftLoop_spec (gt : α → α → Bool) (key : α) :
    ∀ (P : List α) (c : α) (rest : List α),
      shiftLoop gt key (P ++ c :: rest) P.length =
        shiftIns gt key P ++ rest := by
  intro P
  induction P using List.reverseRecOn with
  | nil =>
    intro c rest
    rw [List.nil_append, List.length_nil, shiftLoop, List.set_cons_zero,
      shiftIns_nil]
    rfl
  | append_singleton P b ih =>
    intro c rest
    rw [List.length_append, List.length_singleton, List.append_assoc,
      List.singleton_append, shiftLoop]
    rw [getD_append_length P b (c :: rest) default]
    cases hb : gt b key with
    | true =>
      rw [if_pos rfl]
      rw [set_append_middle P b c rest b]
      rw [show P ++ b :: b :: rest = P ++ b :: (b :: rest) from rfl]
      have := ih b (b :: rest)
      rw [this, shiftIns_concat_pos gt key b P hb, List.append_assoc]
      rfl
    | false =>
      rw [if_neg (by simp)]
      rw [set_append_middle P b c rest key,
        shiftIns_concat_neg gt key b P hb, List.append_assoc]
      rfl

theorem insFold_length (gt : α → α → Bool) (l : List α) :
    (insFold gt l).length = l.length :=
  (insFold_perm gt l).length_eq

theorem getD_append_eq (P : List α) (b : α) (t : List α) (d : α) (i : Nat)
    (hP : P.length = i) : (P ++ b :: t).getD i d = b := by
  subst hP
  exact getD_append_length P b t d

theorem shiftLoop_spec_at (gt : α → α → Bool) (key : α) (P : List α)
    (c : α) (rest : List α) (i : Nat) (hP : P.length = i) :
    shiftLoop gt key (P ++ c :: rest) i = shiftIns gt key P ++ rest := by
  subst hP
  exact shiftLoop_spec gt key P c rest

theorem ins_outer (gt : α → α → Bool) (data : List α) :
    ∀ (m i : Nat), 1 ≤ i → i + m = data.length →
      (List.range' i m).foldl
          (fun a i' => shiftLoop gt (a.getD i' default) a i')
          (insFold gt (data.take i) ++ data.drop i) =
        insFold gt data := by
  intro m
  induction m with
  | zero =>
    intro i _ him
    rw [List.take_of_length_le (by omega), List.drop_eq_nil_of_le (by omega),
      List.append_nil]
    rfl
  | succ m ih =>
    intro i hi him
    have hilt : i < data.length := by omega
    rw [List.range'_succ, List.foldl_cons]
    have hx : data.getD i default = data[i] := by
      rw [List.getD_eq_getElem?_getD, List.getElem?_eq_getElem hilt]
      rfl
    have hdrop : data.drop i = data.getD i default :: data.drop (i + 1) := by
      rw [hx]
      exact List.drop_eq_getElem_cons hilt
    have hPlen : (insFold gt (data.take i)).length = i := by
      rw [insFold_length, List.length_take]
      omega
    have htake : data.take (i + 1) =
        data.take i ++ [data.getD i default] := by
      rw [List.take_succ, List.getElem?_eq_getElem hilt, hx]
      rfl
    rw [hdrop]
    rw [getD_append_eq (insFold gt (data.take i)) (data.getD i default)
      (data.drop (i + 1)) default i hPlen]
    rw [shiftLoop_spec_at gt (data.getD i default)
      (insFold gt (data.take i)) (data.getD i default)
      (data.drop (i + 1)) i hPlen]
    rw [show shiftIns gt (data.getD i default)
          (insFold gt (data.take i)) = insFold gt (data.take (i + 1)) by
        rw [htake, insFold_concat]]
    exact ih (i + 1) (by omega) (by omega)

theorem insertion_sort_eq_insFold (gt : α → α → Bool) (data : List α) :
    insertion_sort gt data = insFold gt data := by
  cases data with
  | nil => rfl
  | cons a t =>
    show (List.range' 1 ((a :: t).length - 1)).foldl
        (fun a2 i => shiftLoop gt (a2.getD i default) a2 i) (a :: t) =
      insFold gt (a :: t)
    have h1 : (a :: t).length - 1 = t.length := by
      rw [List.length_cons]
      omega
    have h2 := ins_outer gt (a :: t) t.length 1 (Nat.le_refl 1)
      (by rw [List.length_cons]; omega)
    rw [h1]
    rw [show insFold gt ((a :: t).take 1) ++ (a :: t).drop 1 = a :: t
        from rfl] at h2
    exact h2

end InsertionProofs

/-! ## Correctness of the classic selection sort -/

section SelectionProofs

variable {α : Type} [Inhabited α]

theorem minIdxAux_spec {α : Type} [Inhabited α] [LinearOrder α] :
    ∀ (xs : List α) (v : α) (best j : Nat),
      (minIdxAux (fun a b => decide (a < b)) v best j xs = best ∧
        ∀ x ∈ xs, v ≤ x) ∨
      (∃ t, t < xs.length ∧
        minIdxAux (fun a b => decide (a < b)) v best j xs = j + t ∧
        xs.getD t default ≤ v ∧ ∀ x ∈ xs, xs.getD t default ≤ x) := by
  intro xs
  induction xs with
  | nil =>
    intro v best j
    left
    exact ⟨rfl, by intro x hx; simp at hx⟩
  | cons x xs' ih =>
    intro v best j
    rw [minIdxAux]
    by_cases hxv : x < v
    · rw [if_pos (by simpa using hxv)]
      rcases ih x j (j + 1) with ⟨heq, hle⟩ | ⟨t', ht', heq, hval, hall⟩
      · right
        refine ⟨0, by simp, by rw [heq]; omega, ?_, ?_⟩
        · exact le_of_lt hxv
        · intro y hy
          rcases List.mem_cons.mp hy with rfl | hy'
          · exact le_refl _
          · exact hle y hy'
      · right
        refine ⟨t' + 1, by simpa using ht', ?_, ?_, ?_⟩
        · rw [heq]
          omega
        · rw [List.getD_cons_succ]
          exact le_of_lt (lt_of_le_of_lt hval hxv)
        · intro y hy
          rw [List.getD_cons_succ]
          rcases List.mem_cons.mp hy with rfl | hy'
          · exact hval
          · exact hall y hy'
    · rw [if_neg (by simpa using hxv)]
      have hvx : v ≤ x := le_of_not_lt hxv
      rcases ih v best (j + 1) with ⟨heq, hle⟩ | ⟨t', ht', heq, hval, hall⟩
      · left
        refine ⟨heq, ?_⟩
        intro y hy
        rcases List.mem_cons.mp hy with rfl | hy'
        · exact hvx
        · exact hle y hy'
      · right
        refine ⟨t' + 1, by simpa using ht', ?_, ?_, ?_⟩
        · rw [heq]
          omega
        · rw [List.getD_cons_succ]
          exact hval
        · intro y hy
          rw [List.getD_cons_succ]
          rcases List.mem_cons.mp hy with rfl | hy'
          · exact le_trans hval hvx
          · exact hall y hy'

theorem swapFront_cons_zero (a : α) (xs : List α) :
    swapFront (a :: xs) 0 = a :: xs := rfl

theorem swapFront_cons_succ (a : α) (xs : List α) (t : Nat) :
    swapFront (a :: xs) (t + 1) = xs.getD t default :: xs.set t a := by
  unfold swapFront
  rw [List.getD_cons_succ, List.set_cons_zero, List.set_cons_succ,
    List.getD_cons_zero]

theorem set_append_length :
    ∀ (P : List α) (b : α) (t : List α) (v : α),
      (P ++ b :: t).set P.length v = P ++ v :: t := by
  intro P
  induction P with
  | nil => intro b t v; rfl
  | cons x P ih =>
    intro b t v
    rw [List.cons_append, List.length_cons, List.set_cons_succ, ih]
    rfl

theorem set_append_eq (P : List α) (b : α) (t : List α) (v : α) (i : Nat)
    (hP : P.length = i) : (P ++ b :: t).set i v = P ++ v :: t := by
  subst hP
  exact set_append_length P b t v

theorem set_perm (xs : List α) (t : Nat) (ht : t < xs.length) (a : α) :
    List.Perm (xs.getD t default :: xs.set t a) (a :: xs) := by
  have hu : xs.take t ++ xs.getD t default :: xs.drop (t + 1) = xs := by
    rw [List.getD_eq_getElem?_getD, List.getElem?_eq_getElem ht]
    rw [show (some xs[t]).getD default = xs[t] from rfl]
    rw [← List.drop_eq_getElem_cons ht]
    exact List.take_append_drop t xs
  have hlen : (xs.take t).length = t := by
    rw [List.length_take]
    omega
  have hset : xs.set t a = xs.take t ++ a :: xs.drop (t + 1) := by
    conv_lhs => rw [← hu]
    exact set_append_eq _ _ _ _ t hlen
  rw [hset]
  conv_rhs => rw [← hu]
  refine ((List.perm_middle).cons _).trans ?_
  refine (List.Perm.swap _ _ _).trans ?_
  exact (List.perm_middle.symm).cons _

theorem select_step {α : Type} [Inhabited α] [LinearOrder α]
    (a : α) (xs : List α) :
    ∃ (v : α) (rest : List α),
      swapFront (a :: xs) (minIdx (fun a b => decide (a < b)) (a :: xs)) =
        v :: rest ∧
      List.Perm (v :: rest) (a :: xs) ∧
      rest.length = xs.length ∧
      (∀ y ∈ a :: xs, v ≤ y) := by
  rw [minIdx]
  rcases minIdxAux_spec xs a 0 1 with ⟨heq, hle⟩ |
    ⟨t, ht, heq, hval, hall⟩
  · rw [heq, swapFront_cons_zero]
    refine ⟨a, xs, rfl, List.Perm.refl _, rfl, ?_⟩
    intro y hy
    rcases List.mem_cons.mp hy with rfl | hy'
    · exact le_refl _
    · exact hle y hy'
  · rw [heq, show 1 + t = t + 1 by omega, swapFront_cons_succ]
    refine ⟨xs.getD t default, xs.set t a, rfl, set_perm xs t ht a,
      by rw [List.length_set], ?_⟩
    intro y hy
    rcases List.mem_cons.mp hy with rfl | hy'
    · exact hval
    · exact hall y hy'

theorem selLoop_correct {α : Type} [Inhabited α] [LinearOrder α] :
    ∀ (r : Nat) (l : List α), l.length = r →
      List.Perm (selLoop (fun a b => decide (a < b)) r l) l ∧
      List.Sorted (· ≤ ·) (selLoop (fun a b => decide (a < b)) r l) := by
  intro r
  induction r with
  | zero =>
    intro l hl
    have : l = [] := List.length_eq_zero.mp hl
    subst this
    exact ⟨List.Perm.refl _, List.sorted_nil⟩
  | succ r ih =>
    intro l hl
    match l, hl with
    | a :: xs, hl =>
      rcases select_step a xs with ⟨v, rest, hswap, hperm, hlen, hmin⟩
      rw [show selLoop (fun a b => decide (a < b)) (r + 1) (a :: xs) =
          (swapFront (a :: xs)
              (minIdx (fun a b => decide (a < b)) (a :: xs))).headD default ::
            selLoop (fun a b => decide (a < b)) r
              (swapFront (a :: xs)
                (minIdx (fun a b => decide (a < b)) (a :: xs))).tail
          from rfl, hswap]
      rw [List.headD_cons, List.tail_cons]
      have hrest_len : rest.length = r := by
        have : (a :: xs).length = r + 1 := hl
        rw [List.length_cons] at this
        omega
      rcases ih rest hrest_len with ⟨ihperm, ihsorted⟩
      constructor
      · exact (ihperm.cons v).trans hperm
      · rw [List.sorted_cons]
        refine ⟨?_, ihsorted⟩
        intro y hy
        have hyrest : y ∈ rest := ihperm.mem_iff.mp hy
        have : y ∈ a :: xs :=
          hperm.mem_iff.mp (List.mem_cons_of_mem v hyrest)
        exact hmin y this

theorem selectionClassic_perm {α : Type} [Inhabited α] [LinearOrder α]
    (l : List α) :
    List.Perm (selectionClassic (fun a b => decide (a < b)) l) l :=
  (selLoop_correct l.length l rfl).1

theorem selectionClassic_sorted {α : Type} [Inhabited α] [LinearOrder α]
    (l : List α) :
    List.Sorted (· ≤ ·) (selectionClassic (fun a b => decide (a < b)) l) :=
  (selLoop_correct l.length l rfl).2

/-! ### The index machine computes the classic selection sort -/

theorem getD_append_add (P rest : List α) (d : α) :
    ∀ (t : Nat), (P ++ rest).getD (P.length + t) d = rest.getD t d := by
  induction P with
  | nil =>
    intro t
    rw [List.nil_append, List.length_nil, Nat.zero_add]
  | cons x P ih =>
    intro t
    rw [List.cons_append, List.length_cons,
      show P.length + 1 + t = (P.length + t) + 1 by omega,
      List.getD_cons_succ]
    exact ih t

theorem getD_append_add_at (P rest : List α) (d : α) (i t : Nat)
    (hP : P.length = i) : (P ++ rest).getD (i + t) d = rest.getD t d := by
  subst hP
  exact getD_append_add P rest d t

theorem getD_append_at_zero (P rest : List α) (d : α) (i : Nat)
    (hP : P.length = i) : (P ++ rest).getD i d = rest.getD 0 d := by
  subst hP
  exact getD_append_add P rest d 0

theorem set_append_add (P rest : List α) (v : α) :
    ∀ (t : Nat), (P ++ rest).set (P.length + t) v = P ++ rest.set t v := by
  induction P with
  | nil =>
    intro t
    rw [List.nil_append, List.length_nil, Nat.zero_add]
    rfl
  | cons x P ih =>
    intro t
    rw [List.cons_append, List.length_cons,
      show P.length + 1 + t = (P.length + t) + 1 by omega,
      List.set_cons_succ, ih]
    rfl

theorem set_append_add_at (P rest : List α) (v : α) (i t : Nat)
    (hP : P.length = i) : (P ++ rest).set (i + t) v = P ++ rest.set t v := by
  subst hP
  exact set_append_add P rest v t

theorem set_append_at_zero (P rest : List α) (v : α) (i : Nat)
    (hP : P.length = i) : (P ++ rest).set i v = P ++ rest.set 0 v := by
  subst hP
  exact set_append_add P rest v 0

theorem drop_cons_facts (rest : List α) (j : Nat) (x : α) (xs' : List α)
    (h : rest.drop j = x :: xs') :
    j < rest.length ∧ rest.getD j default = x ∧
      rest.drop (j + 1) = xs' := by
  have hlen : (rest.drop j).length = rest.length - j := List.length_drop j rest
  rw [h, List.length_cons] at hlen
  have hjlt : j < rest.length := by omega
  refine ⟨hjlt, ?_, ?_⟩
  · have h0 : (rest.drop j)[0]? = some x := by rw [h]; simp
    rw [List.getElem?_drop] at h0
    rw [Nat.add_zero] at h0
    rw [List.getD_eq_getElem?_getD, h0]
    rfl
  · have : rest.drop (j + 1) = (rest.drop j).drop 1 := by
      rw [List.drop_drop]
    rw [this, h]
    rfl

theorem sel_inner (lt : α → α → Bool) (pre rest : List α) (i : Nat)
    (hpre : pre.length = i) :
    ∀ (xs : List α) (j best : Nat), rest.drop j = xs →
      best < rest.length → j ≤ rest.length →
      (List.range' (i + j) xs.length).foldl
          (fun mi j' =>
            if lt ((pre ++ rest).getD j' default)
                ((pre ++ rest).getD mi default)
            then j' else mi)
          (i + best) =
        i + minIdxAux lt (rest.getD best default) best j xs := by
  intro xs
  induction xs with
  | nil => intro j best _ _ _; rfl
  | cons x xs' ih =>
    intro j best hdrop hbest hj
    rcases drop_cons_facts rest j x xs' hdrop with ⟨hjlt, hx, hdrop'⟩
    rw [List.length_cons, List.range'_succ, List.foldl_cons,
      getD_append_add_at pre rest default i j hpre,
      getD_append_add_at pre rest default i best hpre, hx, minIdxAux]
    by_cases hc : lt x (rest.getD best default) = true
    · rw [if_pos hc, if_pos hc]
      have h2 := ih (j + 1) j hdrop' hjlt (by omega)
      rw [hx] at h2
      exact h2
    · rw [if_neg hc, if_neg hc]
      exact ih (j + 1) best hdrop' hbest (by omega)

theorem sel_inner_start (lt : α → α → Bool) (pre : List α) (i n : Nat)
    (a : α) (xs : List α) (hpre : pre.length = i)
    (hn : i + (xs.length + 1) = n) :
    (List.range' (i + 1) (n - i - 1)).foldl
        (fun mi j =>
          if lt ((pre ++ a :: xs).getD j default)
              ((pre ++ a :: xs).getD mi default)
          then j else mi) i =
      i + minIdx lt (a :: xs) := by
  have harith : n - i - 1 = xs.length := by omega
  rw [harith, minIdx]
  have h := sel_inner lt pre (a :: xs) i hpre xs 1 0 rfl
    (by rw [List.length_cons]; omega) (by rw [List.length_cons]; omega)
  exact h

theorem swapFront_length (l : List α) (k : Nat) :
    (swapFront l k).length = l.length := by
  unfold swapFront
  rw [List.length_set, List.length_set]

theorem headD_cons_tail (l : List α) (hl : l ≠ []) :
    l.headD default :: l.tail = l := by
  cases l with
  | nil => exact absurd rfl hl
  | cons a t => rfl

theorem sel_outer (lt : α → α → Bool) (n : Nat) :
    ∀ (r i : Nat) (pre rest : List α), pre.length = i →
      rest.length = r → i + r = n →
      (List.range' i r).foldl
          (fun a i' =>
            let m := (List.range' (i' + 1) (n - i' - 1)).foldl
              (fun mi j =>
                if lt (a.getD j default) (a.getD mi default) then j
                else mi) i'
            (a.set i' (a.getD m default)).set m (a.getD i' default))
          (pre ++ rest) =
        pre ++ selLoop lt r rest := by
  intro r
  induction r with
  | zero =>
    intro i pre rest hpre hrest _
    have : rest = [] := List.length_eq_zero.mp hrest
    subst this
    rfl
  | succ r ih =>
    intro i pre rest hpre hrest hn
    match rest, hrest with
    | a :: xs, hrest =>
      have hxs : xs.length = r := by
        rw [List.length_cons] at hrest
        omega
      rw [List.range'_succ, List.foldl_cons]
      simp only []
      rw [sel_inner_start lt pre i n a xs hpre
        (by rw [hxs]; omega)]
      rw [getD_append_add_at pre (a :: xs) default i
          (minIdx lt (a :: xs)) hpre,
        getD_append_at_zero pre (a :: xs) default i hpre,
        set_append_at_zero pre (a :: xs) _ i hpre,
        set_append_add_at pre ((a :: xs).set 0 ((a :: xs).getD
          (minIdx lt (a :: xs)) default)) _ i (minIdx lt (a :: xs)) hpre]
      rw [show ((a :: xs).set 0 ((a :: xs).getD (minIdx lt (a :: xs))
            default)).set (minIdx lt (a :: xs)) ((a :: xs).getD 0 default) =
          swapFront (a :: xs) (minIdx lt (a :: xs)) from rfl]
      have hl2ne : swapFront (a :: xs) (minIdx lt (a :: xs)) ≠ [] := by
        intro hc
        have := swapFront_length (a :: xs) (minIdx lt (a :: xs))
        rw [hc, List.length_nil, List.length_cons] at this
        omega
      have hl2 := headD_cons_tail _ hl2ne
      have hl2tail : (swapFront (a :: xs) (minIdx lt (a :: xs))).tail.length
          = r := by
        rw [List.length_tail, swapFront_length, List.length_cons]
        omega
      conv_lhs =>
        rw [← hl2, show pre ++ ((swapFront (a :: xs)
            (minIdx lt (a :: xs))).headD default ::
            (swapFront (a :: xs) (minIdx lt (a :: xs))).tail) =
          (pre ++ [(swapFront (a :: xs)
            (minIdx lt (a :: xs))).headD default]) ++
            (swapFront (a :: xs) (minIdx lt (a :: xs))).tail by
          rw [List.append_assoc]
          rfl]
      rw [ih (i + 1) (pre ++ [(swapFront (a :: xs)
          (minIdx lt (a :: xs))).headD default])
        (swapFront (a :: xs) (minIdx lt (a :: xs))).tail
        (by rw [List.length_append, List.length_singleton, hpre])
        hl2tail (by omega)]
      rw [show selLoop lt (r + 1) (a :: xs) =
          (swapFront (a :: xs) (minIdx lt (a :: xs))).headD default ::
            selLoop lt r
              (swapFront (a :: xs) (minIdx lt (a :: xs))).tail from rfl]
      rw [List.append_assoc]
      rfl

theorem selection_sort_eq_classic (lt : α → α → Bool) (data : List α) :
    selection_sort lt data = selectionClassic lt data := by
  show (List.range data.length).foldl
      (fun a i =>
        let m := (List.range' (i + 1) (data.length - i - 1)).foldl
          (fun mi j =>
            if lt (a.getD j default) (a.getD mi default) then j else mi) i
        (a.set i (a.getD m default)).set m (a.getD i default))
      data = selLoop lt data.length data
  rw [List.range_eq_range']
  have h := sel_outer lt data.length data.length 0 [] data rfl rfl
    (by omega)
  rw [List.nil_append] at h
  rw [h, List.nil_append]

end SelectionProofs

/-! ## String-level wrappers

The benchmark applies the comparisons to strings.  The `Decidable`
instance for `String` inequality differs (as a term) between elaboration
contexts, so the lemmas below restate the results for the comparator as
it appears in the claims, and relate it to the structurally computable
`toList` comparison for concrete evaluation. -/

section Wrappers

variable {α : Type} [Inhabited α]

theorem bubble_sort_perm (gt : α → α → Bool) (l : List α) :
    List.Perm (bubble_sort gt l) l := by
  rw [bubble_sort_eq_classic]
  exact bubbleClassic_perm gt l

theorem insertion_sort_perm (gt : α → α → Bool) (l : List α) :
    List.Perm (insertion_sort gt l) l := by
  rw [insertion_sort_eq_insFold]
  exact insFold_perm gt l

end Wrappers

theorem strGt_toList :
    (fun a b : String => decide (b < a)) =
      (fun a b : String => decide (b.toList < a.toList)) := by
  funext a b
  rw [decide_eq_decide]
  exact String.lt_iff_toList_lt

theorem strLt_toList :
    (fun a b : String => decide (a < b)) =
      (fun a b : String => decide (a.toList < b.toList)) := by
  funext a b
  rw [decide_eq_decide]
  exact String.lt_iff_toList_lt

theorem bubble_sort_sorted_str (l : List String) :
    List.Sorted (· ≤ ·)
      (bubble_sort (fun a b : String => decide (b < a)) l) := by
  rw [bubble_sort_eq_classic]
  have hb := bubbleClassic_sorted (α := String) l
  convert hb using 2
  funext a b
  rw [decide_eq_decide]

theorem selection_sort_perm_str (l : List String) :
    List.Perm (selection_sort (fun a b : String => decide (a < b)) l) l := by
  rw [selection_sort_eq_classic]
  have h := selectionClassic_perm (α := String) l
  convert h using 2
  funext a b
  rw [decide_eq_decide]

theorem selection_sort_sorted_str (l : List String) :
    List.Sorted (· ≤ ·)
      (selection_sort (fun a b : String => decide (a < b)) l) := by
  rw [selection_sort_eq_classic]
  have hb := selectionClassic_sorted (α := String) l
  convert hb using 2
  funext a b
  rw [decide_eq_decide]

theorem insertion_sort_sorted_str (l : List String) :
    List.Sorted (· ≤ ·)
      (insertion_sort (fun a b : String => decide (b < a)) l) := by
  rw [insertion_sort_eq_insFold]
  have hb := insFold_sorted (α := String) l
  convert hb using 2
  funext a b
  rw [decide_eq_decide]

/-! ## The claims -/

/-- Claim C1: each of `bubble_sort`, `selection_sort` and
`insertion_sort`, run on any finite list of strings with Python's `>` /
`<` string comparison, returns a permutation of its input that is
non-decreasing under the lexicographic order on adjacent pairs
(`List.Chain' (· ≤ ·)`). -/
theorem claim_C1 : ∀ l : List String,
    (List.Perm (bubble_sort (fun a b : String => decide (b < a)) l) l ∧
      List.Chain' (· ≤ ·)
        (bubble_sort (fun a b : String => decide (b < a)) l)) ∧
    (List.Perm (selection_sort (fun a b : String => decide (a < b)) l) l ∧
      List.Chain' (· ≤ ·)
        (selection_sort (fun a b : String => decide (a < b)) l)) ∧
    (List.Perm (insertion_sort (fun a b : String => decide (b < a)) l) l ∧
      List.Chain' (· ≤ ·)
        (insertion_sort (fun a b : String => decide (b < a)) l)) := by
  intro l
  exact ⟨⟨bubble_sort_perm _ l,
      List.chain'_iff_pairwise.mpr (bubble_sort_sorted_str l)⟩,
    ⟨selection_sort_perm_str l,
      List.chain'_iff_pairwise.mpr (selection_sort_sorted_str l)⟩,
    ⟨insertion_sort_perm _ l,
      List.chain'_iff_pairwise.mpr (insertion_sort_sorted_str l)⟩⟩

/-- Claim C2: `insertion_sort` is stable.  Elements are made
distinguishable by tagging each record with a `Nat` (its input
position); the comparator compares only the record, exactly as Python's
`arr[j] > key` compares the strings.  For every value `v`, the
subsequence of elements carrying `v` is unchanged by the sort, so
equal-valued elements keep their relative input order. -/
theorem claim_C2 : ∀ (l : List (String × Nat)) (v : String),
    (insertion_sort (fun a b : String × Nat => decide (b.1 < a.1))
        l).filter (fun p => p.1 == v) =
      l.filter (fun p => p.1 == v) := by
  intro l v
  rw [insertion_sort_eq_insFold]
  refine insFold_filter _ _ ?_ l
  intro x k hx hk
  have hxv : x.1 = v := by simpa using hx
  have hkv : k.1 = v := by simpa using hk
  show decide (k.1 < x.1) = false
  rw [hxv, hkv]
  exact decide_eq_false (lt_irrefl v)

/-- Claim C3: `bubble_sort` follows the exact classic loop structure:
it equals `bubbleClassic`, which by definition performs exactly `n`
passes (no early exit) where pass `i` does at most `n - i - 1` adjacent
comparisons and swaps only on strict greater-than; in particular a list
of equal elements is returned unchanged (equal elements are never
swapped). -/
theorem claim_C3 :
    (∀ l : List String,
      bubble_sort (fun a b : String => decide (b < a)) l =
        bubbleClassic (fun a b : String => decide (b < a)) l) ∧
    (∀ (n : Nat) (a : String),
      bubble_sort (fun a b : String => decide (b < a))
          (List.replicate n a) = List.replicate n a) := by
  constructor
  · intro l
    exact bubble_sort_eq_classic _ l
  · intro n a
    exact List.perm_replicate.mp (bubble_sort_perm _ _)

/-- Claim C4: the loader keeps exactly the lines that are non-empty
after trimming, trimmed, in their original relative order; its length is
the count of such lines. -/
theorem claim_C4 : ∀ raws : List String,
    load_lines raws = (raws.map String.trim).filter (fun s => s ≠ "") ∧
    (load_lines raws).length = raws.countP (fun l => l.trim ≠ "") := by
  intro raws
  exact ⟨load_lines_eq raws, load_lines_length raws⟩

/-- Claim C5: for every probe position in the fixed probe set, a
position exceeding the container size reports out-of-range (`none`, the
run continues) and a position within the size reports an element; on a
4-element stack positions 1 and 4 yield elements while 100, 1000 and
5000 are out of range. -/
theorem claim_C5 :
    (∀ (l : List String) (p : Nat), p ∈ positions l.length → 1 ≤ p →
      (l.length < p → probe l p = none) ∧
      (p ≤ l.length → (probe l p).isSome)) ∧
    (∀ a b c d : String,
      probe [a, b, c, d] 1 = some a ∧
      probe [a, b, c, d] 100 = none ∧
      probe [a, b, c, d] 1000 = none ∧
      probe [a, b, c, d] 5000 = none ∧
      probe [a, b, c, d] 4 = some d) := by
  constructor
  · intro l p _ hp1
    exact ⟨fun hgt => probe_eq_none_of_lt hgt,
      fun hle => probe_isSome hp1 hle⟩
  · intro a b c d
    exact ⟨rfl, rfl, rfl, rfl, rfl⟩

/-- Witness for C5: position 5000 probed against a 1-element stack is
out of range, and position 4 on a 4-element stack yields its last
element. -/
theorem claim_C5_witness :
    probe ["x"] 5000 = none ∧
      probe ["a", "b", "c", "d"] 4 = some "d" :=
  ⟨(claim_C5.1 ["x"] 5000 (by decide) (by decide)).1 (by decide),
    (claim_C5.2 "a" "b" "c" "d").2.2.2.2⟩

/-- Claim C6: on a listing of fewer than 10 records, the guarded bulk
removal phase empties the stack, the queue and the hashtable without
error. -/
theorem claim_C6 : ∀ lines : List String, lines.length < 10 →
    stackRemove10 lines = [] ∧ queueRemove10 lines = [] ∧
    mapRemove10 (buildMap lines) (mapKeys (buildMap lines)) = [] := by
  intro lines h
  exact ⟨stackRemove10_eq_nil h, queueRemove10_eq_nil h,
    mapRemove10_eq_nil h⟩

/-- Witness for C6: a 3-element listing with a duplicate leaves all
three containers empty after bulk removal. -/
theorem claim_C6_witness :
    stackRemove10 ["a", "b", "a"] = [] ∧
    queueRemove10 ["a", "b", "a"] = [] ∧
    mapRemove10 (buildMap ["a", "b", "a"])
      (mapKeys (buildMap ["a", "b", "a"])) = [] :=
  claim_C6 ["a", "b", "a"] (by decide)

/-- Claim C7: the hashtable's keys are exactly the distinct records of
the listing in first-occurrence order, and each key's tag is the load
index of its last occurrence (last-write-wins). -/
theorem claim_C7 : ∀ lines : List String,
    mapKeys (buildMap lines) = distinctFirst lines ∧
    ∀ k, mapFind (buildMap lines) k = lastIdx k lines := by
  intro lines
  exact ⟨keys_buildMap lines, fun k => find_buildMap lines k⟩

/-- Claim C8: no sorting algorithm mutates its input.  Each call is
modelled with the caller's list threaded through the state
(`*_sort_call`): every write of the Python body targets the copy
`arr = data[:]`, so the caller's list after the call is the original
input, and the returned list is the sort of the copy. -/
theorem claim_C8 : ∀ data : List String,
    (bubble_sort_call (fun a b : String => decide (b < a)) data).1 =
      data ∧
    (selection_sort_call (fun a b : String => decide (a < b)) data).1 =
      data ∧
    (insertion_sort_call (fun a b : String => decide (b < a)) data).1 =
      data ∧
    (bubble_sort_call (fun a b : String => decide (b < a)) data).2 =
      bubble_sort (fun a b : String => decide (b < a)) data ∧
    (selection_sort_call (fun a b : String => decide (a < b)) data).2 =
      selection_sort (fun a b : String => decide (a < b)) data ∧
    (insertion_sort_call (fun a b : String => decide (b < a)) data).2 =
      insertion_sort (fun a b : String => decide (b < a)) data := by
  intro data
  exact ⟨rfl, rfl, rfl, rfl, rfl, rfl⟩

/-- Claim C9: the three sorts are extensionally equal on lists of
strings, and on `["b", "a", "a", "c"]` each returns
`["a", "a", "b", "c"]`. -/
theorem claim_C9 :
    (∀ l : List String,
      bubble_sort (fun a b : String => decide (b < a)) l =
        insertion_sort (fun a b : String => decide (b < a)) l ∧
      selection_sort (fun a b : String => decide (a < b)) l =
        insertion_sort (fun a b : String => decide (b < a)) l) ∧
    (bubble_sort (fun a b : String => decide (b < a))
        ["b", "a", "a", "c"] = ["a", "a", "b", "c"] ∧
      selection_sort (fun a b : String => decide (a < b))
        ["b", "a", "a", "c"] = ["a", "a", "b", "c"] ∧
      insertion_sort (fun a b : String => decide (b < a))
        ["b", "a", "a", "c"] = ["a", "a", "b", "c"]) := by
  constructor
  · intro l
    constructor
    · exact List.eq_of_perm_of_sorted
        ((bubble_sort_perm _ l).trans (insertion_sort_perm _ l).symm)
        (bubble_sort_sorted_str l) (insertion_sort_sorted_str l)
    · exact List.eq_of_perm_of_sorted
        ((selection_sort_perm_str l).trans (insertion_sort_perm _ l).symm)
        (selection_sort_sorted_str l) (insertion_sort_sorted_str l)
  · refine ⟨?_, ?_, ?_⟩
    · rw [strGt_toList]
      decide
    · rw [strLt_toList]
      decide
    · rw [strGt_toList]
      decide

/-- Claim C10: whenever the listing contains a duplicate record, the
hashtable has strictly fewer than `N` keys, so the probe at position
`N` reports out-of-range against the hashtable, while the same probe
against the stack and the queue (both of which hold the full listing)
yields the last record. -/
theorem claim_C10 : ∀ lines : List String, ¬ lines.Nodup →
    (mapKeys (buildMap lines)).length < lines.length ∧
    probe (mapKeys (buildMap lines)) lines.length = none ∧
    probe lines lines.length = lines.getLast? ∧
    lines.getLast?.isSome := by
  intro lines h
  have hne : lines ≠ [] := by
    intro hc
    subst hc
    exact h List.nodup_nil
  have hlt : (mapKeys (buildMap lines)).length < lines.length := by
    rw [keys_buildMap]
    exact distinctFirst_length_lt h
  exact ⟨hlt, probe_eq_none_of_lt hlt, probe_length lines,
    List.getLast?_isSome.mpr hne⟩

/-- Witness for C10: on the duplicate-containing listing
`["a", "a"]` the hashtable probe at position 2 is out of range while
the listing probe at position 2 yields the last record. -/
theorem claim_C10_witness :
    probe (mapKeys (buildMap ["a", "a"])) 2 = none ∧
      probe ["a", "a"] 2 = (["a", "a"] : List String).getLast? :=
  ⟨(claim_C10 ["a", "a"] (by decide)).2.1,
    (claim_C10 ["a", "a"] (by decide)).2.2.1⟩

end PB
